import Mathlib

/-!
Verification of the `fundamental` crate: fixed-capacity `Queue` (circular
buffer) and `Stack`, embedded shallowly from `src/queue.rs` and
`src/stack.rs`.

Modelling conventions:
* A Rust `[Option<T>; C]` array becomes a `List (Option T)`; the invariant
  that its length is `C` is carried by the representation predicates.
* Rust array indexing panics when out of bounds, so every operation that
  indexes the array returns an outer `Option`: `none` is the panic marker,
  `some r` is normal termination with result `r`.
* A Rust `&mut self` method returning `Result<(), T>` becomes a function
  returning the pair of the `Result` value (`Except T Unit`) and the new
  state; a method returning `Option<T>` becomes the pair of that option and
  the new state.
-/

set_option autoImplicit false

/-- Embeds `struct Queue<T, const C: usize> { elements: [Option<T>; C], head: usize, length: usize }`.
`C` is a phantom parameter here; `elements.length = C` is part of the
reachable-state invariant. -/
structure Queue (T : Type) (C : Nat) where
  elements : List (Option T)
  head : Nat
  length : Nat
  deriving DecidableEq, Repr

/-- Embeds `struct Stack<T, const C: usize> { elements: [Option<T>; C], length: usize }`. -/
structure Stack (T : Type) (C : Nat) where
  elements : List (Option T)
  length : Nat
  deriving DecidableEq, Repr

/-- Checked array write: models `arr[i] = a` in Rust, which panics
(`none`) when `i` is out of bounds. -/
def setChecked {α : Type} (l : List α) (i : Nat) (a : α) : Option (List α) :=
  if i < l.length then some (l.set i a) else none

namespace Queue

variable {T : Type} {C : Nat}

/-- Embeds `Queue::new`: `elements = [None; C], head = 0, length = 0`. -/
def new (T : Type) (C : Nat) : Queue T C :=
  { elements := List.replicate C none, head := 0, length := 0 }

/-- Embeds `Queue::capacity`: returns `C`. -/
def capacity (_q : Queue T C) : Nat := C

/-- Embeds `Queue::len`: returns `self.length`. -/
def len (q : Queue T C) : Nat := q.length

/-- Embeds `Queue::is_empty`: `self.len() == 0`. -/
def is_empty (q : Queue T C) : Bool := q.len == 0

/-- Embeds `Queue::is_full`: `self.len() == self.capacity()`. -/
def is_full (q : Queue T C) : Bool := q.len == q.capacity

/-- Embeds the private `Queue::tail`: `(self.head + self.len()) % self.capacity()`.
(In Rust `% 0` would panic, but `tail` is only called from `enqueue` after
the full-check, which rules out `C = 0`.) -/
def tail (q : Queue T C) : Nat := (q.head + q.len) % C

/-- Embeds `Queue::as_slice`: a view of the underlying storage. -/
def as_slice (q : Queue T C) : List (Option T) := q.elements

/-- Embeds `Queue::get`. Result `some none` is Rust `None`, `some (some v)`
is Rust `Some(&v)`, and outer `none` is a panic of the array indexing. -/
def get (q : Queue T C) (index : Nat) : Option (Option T) :=
  if index ≥ q.len then some none
  else q.elements[(q.head + index) % q.capacity]?

/-- Embeds `Queue::enqueue`. Returns `some (result, newState)` on normal
termination (where `result = Except.error element` is Rust
`Err(element)`), and `none` if the array write panics. -/
def enqueue (q : Queue T C) (element : T) : Option (Except T Unit × Queue T C) :=
  if q.is_full then some (Except.error element, q)
  else
    match setChecked q.elements q.tail (some element) with
    | none => none
    | some elements' =>
        some (Except.ok (), { q with elements := elements', length := q.length + 1 })

/-- Embeds `Queue::dequeue`. `self.elements[self.head()].take()` reads the
head slot (panicking when `self.head` is out of bounds, e.g. `C = 0`) and
overwrites it with `None`; head and length advance only when the slot held
a value. -/
def dequeue (q : Queue T C) : Option (Option T × Queue T C) :=
  match q.elements[q.head]? with
  | none => none
  | some slot =>
      let elements' := q.elements.set q.head none
      match slot with
      | some e =>
          some (some e, { elements := elements', head := (q.head + 1) % C,
                          length := q.length - 1 })
      | none => some (none, { q with elements := elements' })

/-- Runs a sequence of `enqueue` calls; `none` when any call panics or
returns `Err`. -/
def enqueueAll (q : Queue T C) : List T → Option (Queue T C)
  | [] => some q
  | e :: es =>
      match q.enqueue e with
      | some (Except.ok _, q') => enqueueAll q' es
      | _ => none

/-- Runs `n` `dequeue` calls, collecting the returned elements; `none` when
any call panics or returns `None`. -/
def dequeueN (q : Queue T C) : Nat → Option (List T × Queue T C)
  | 0 => some ([], q)
  | n + 1 =>
      match q.dequeue with
      | some (some x, q') =>
          match dequeueN q' n with
          | some (xs, q'') => some (x :: xs, q'')
          | none => none
      | _ => none

/-- States reachable from `Queue::new` by non-panicking `enqueue`/`dequeue`
calls (a panicking call aborts the program and yields no state). -/
inductive Reachable (T : Type) (C : Nat) : Queue T C → Prop where
  | new : Reachable T C (Queue.new T C)
  | enq {q q' : Queue T C} {e : T} {r : Except T Unit} :
      Reachable T C q → q.enqueue e = some (r, q') → Reachable T C q'
  | deq {q q' : Queue T C} {r : Option T} :
      Reachable T C q → q.dequeue = some (r, q') → Reachable T C q'

end Queue

namespace Stack

variable {T : Type} {C : Nat}

/-- Embeds `Stack::new`: `elements = [None; C], length = 0`. -/
def new (T : Type) (C : Nat) : Stack T C :=
  { elements := List.replicate C none, length := 0 }

/-- Embeds `Stack::capacity`: returns `C`. -/
def capacity (_s : Stack T C) : Nat := C

/-- Embeds `Stack::len`: returns `self.length`. -/
def len (s : Stack T C) : Nat := s.length

/-- Embeds `Stack::is_empty`: `self.len() == 0`. -/
def is_empty (s : Stack T C) : Bool := s.len == 0

/-- Embeds `Stack::is_full`: `self.len() == self.capacity()`. -/
def is_full (s : Stack T C) : Bool := s.len == s.capacity

/-- Embeds the private `Stack::top`: `self.len() - 1` (saturating at 0 in
this model; `top` is only called from `pop` after the empty-check). -/
def top (s : Stack T C) : Nat := s.len - 1

/-- Embeds `Stack::as_slice`: a view of the underlying storage. -/
def as_slice (s : Stack T C) : List (Option T) := s.elements

/-- Embeds `Stack::get`, with the same result convention as `Queue.get`. -/
def get (s : Stack T C) (index : Nat) : Option (Option T) :=
  if index ≥ s.len then some none
  else s.elements[index]?

/-- Embeds `Stack::push`: rejects when full, otherwise writes at index
`self.len()` and increments the length. -/
def push (s : Stack T C) (element : T) : Option (Except T Unit × Stack T C) :=
  if s.is_full then some (Except.error element, s)
  else
    match setChecked s.elements s.len (some element) with
    | none => none
    | some elements' =>
        some (Except.ok (), { elements := elements', length := s.length + 1 })

/-- Embeds `Stack::pop`: returns `None` when empty, otherwise takes the
element at `self.top()` and decrements the length. -/
def pop (s : Stack T C) : Option (Option T × Stack T C) :=
  if s.is_empty then some (none, s)
  else
    match s.elements[s.top]? with
    | none => none
    | some slot =>
        some (slot, { elements := s.elements.set s.top none, length := s.length - 1 })

/-- Runs a sequence of `push` calls; `none` when any call panics or
returns `Err`. -/
def pushAll (s : Stack T C) : List T → Option (Stack T C)
  | [] => some s
  | e :: es =>
      match s.push e with
      | some (Except.ok _, s') => pushAll s' es
      | _ => none

/-- Runs `n` `pop` calls, collecting the returned elements; `none` when any
call panics or returns `None`. -/
def popN (s : Stack T C) : Nat → Option (List T × Stack T C)
  | 0 => some ([], s)
  | n + 1 =>
      match s.pop with
      | some (some x, s') =>
          match popN s' n with
          | some (xs, s'') => some (x :: xs, s'')
          | none => none
      | _ => none

/-- States reachable from `Stack::new` by non-panicking `push`/`pop` calls. -/
inductive Reachable (T : Type) (C : Nat) : Stack T C → Prop where
  | new : Reachable T C (Stack.new T C)
  | push {s s' : Stack T C} {e : T} {r : Except T Unit} :
      Reachable T C s → s.push e = some (r, s') → Reachable T C s'
  | pop {s s' : Stack T C} {r : Option T} :
      Reachable T C s → s.pop = some (r, s') → Reachable T C s'

end Stack

/-- Claim C8: the concrete wraparound scenario at capacity 3: enqueue 1, 2, 3 (in
each step checking the exact resulting state), dequeue `Some 1`, enqueue 4
into the freed slot 0, then dequeue `Some 2`, `Some 3`, `Some 4`. -/
theorem C8_wraparound :
    (Queue.new Nat 3).enqueue 1
      = some (Except.ok (), ⟨[some 1, none, none], 0, 1⟩) ∧
    (⟨[some 1, none, none], 0, 1⟩ : Queue Nat 3).enqueue 2
      = some (Except.ok (), ⟨[some 1, some 2, none], 0, 2⟩) ∧
    (⟨[some 1, some 2, none], 0, 2⟩ : Queue Nat 3).enqueue 3
      = some (Except.ok (), ⟨[some 1, some 2, some 3], 0, 3⟩) ∧
    (⟨[some 1, some 2, some 3], 0, 3⟩ : Queue Nat 3).is_full = true ∧
    (⟨[some 1, some 2, some 3], 0, 3⟩ : Queue Nat 3).dequeue
      = some (some 1, ⟨[none, some 2, some 3], 1, 2⟩) ∧
    (⟨[none, some 2, some 3], 1, 2⟩ : Queue Nat 3).enqueue 4
      = some (Except.ok (), ⟨[some 4, some 2, some 3], 1, 3⟩) ∧
    (⟨[some 4, some 2, some 3], 1, 3⟩ : Queue Nat 3).dequeue
      = some (some 2, ⟨[some 4, none, some 3], 2, 2⟩) ∧
    (⟨[some 4, none, some 3], 2, 2⟩ : Queue Nat 3).dequeue
      = some (some 3, ⟨[some 4, none, none], 0, 1⟩) ∧
    (⟨[some 4, none, none], 0, 1⟩ : Queue Nat 3).dequeue
      = some (some 4, ⟨[none, none, none], 1, 0⟩) := by
  refine ⟨rfl, rfl, rfl, rfl, rfl, rfl, rfl, rfl, rfl⟩

/-- Claim C3, evaluation at the failing input. On `Queue<T, 0>` (the
state `Queue::new()`, which is empty), `dequeue` evaluates
`self.elements[self.head]` with `head = 0` on a zero-length array, an
out-of-bounds access: the result is the panic marker `none`, not the
Rust return value `None` (which would be `some (none, _)` here). -/
theorem C3_queue_zero_capacity_dequeue_panics :
    (Queue.new Nat 0).dequeue = none := rfl

/-- Claim C1, counterexample: the claim instantiated at `C = 0`, `k = 0` is false.
Enqueuing zero elements and dequeuing zero times succeeds trivially, but
the claimed further dequeue does not return `None`: it panics (marker
`none`), so it returns `some (none, q)` for no state `q`. -/
theorem C1_counterexample :
    (Queue.new Nat 0).enqueueAll [] = some (Queue.new Nat 0) ∧
    (Queue.new Nat 0).dequeueN 0 = some ([], Queue.new Nat 0) ∧
    (Queue.new Nat 0).dequeue = none := ⟨rfl, rfl, rfl⟩

/-! ### Helper lemmas -/

/-- Distinct offsets below `C` stay distinct after adding a common shift
and reducing modulo `C`. -/
theorem add_mod_inj_of_lt {C h a b : Nat} (ha : a < C) (hb : b < C)
    (hab : (h + a) % C = (h + b) % C) : a = b := by
  have h1 : a % C = b % C := Nat.ModEq.add_left_cancel' h hab
  rwa [Nat.mod_eq_of_lt ha, Nat.mod_eq_of_lt hb] at h1

/-- Writing back the value a cell already holds leaves the list unchanged. -/
theorem set_getElem?_self {α : Type} :
    ∀ (l : List α) (i : Nat) (a : α), l[i]? = some a → l.set i a = l
  | [], _, _, h => by simp at h
  | x :: xs, 0, a, h => by
      simp only [List.getElem?_cons_zero, Option.some.injEq] at h
      simp [List.set, h]
  | x :: xs, i + 1, a, h => by
      simp only [List.getElem?_cons_succ] at h
      simp [List.set, set_getElem?_self xs i a h]

namespace Queue

variable {T : Type} {C : Nat}

/-- Representation predicate: queue state `q` stores the logical FIFO
content `l` (front of the queue first). Slot lookups are stated via
`List.getElem?`, so `= some _` also records that the access is in bounds. -/
structure ReprL (q : Queue T C) (l : List T) : Prop where
  hlen : q.elements.length = C
  hlength : q.length = l.length
  hle : l.length ≤ C
  hhead : q.head < C ∨ (C = 0 ∧ q.head = 0)
  hocc : ∀ i, i < l.length → q.elements[(q.head + i) % C]? = some l[i]?
  hfree : ∀ j, j < C → (∀ i, i < l.length → (q.head + i) % C ≠ j) →
    q.elements[j]? = some none

/-- A fresh queue represents the empty content. -/
theorem reprL_new (T : Type) (C : Nat) : ReprL (Queue.new T C) [] := by
  refine ⟨List.length_replicate C none, rfl, Nat.zero_le C, ?_, ?_, ?_⟩
  · rcases Nat.eq_zero_or_pos C with h | h
    · exact Or.inr ⟨h, rfl⟩
    · exact Or.inl h
  · intro i hi; simp at hi
  · intro j hj _
    simp [Queue.new, List.getElem?_replicate, hj]

/-- On a non-full represented queue, `enqueue` succeeds, writes the new
element at the tail slot, and represents the content extended at the back. -/
theorem enqueue_ok {q : Queue T C} {l : List T} (h : ReprL q l) (e : T)
    (hlt : l.length < C) :
    q.enqueue e = some (Except.ok (),
      (⟨q.elements.set q.tail (some e), q.head, q.length + 1⟩ : Queue T C)) ∧
    ReprL (⟨q.elements.set q.tail (some e), q.head, q.length + 1⟩ : Queue T C)
      (l ++ [e]) := by
  have hC : 0 < C := Nat.lt_of_le_of_lt (Nat.zero_le _) hlt
  have hhead : q.head < C := by
    rcases h.hhead with hh | ⟨h0, _⟩
    · exact hh
    · omega
  have htail_lt : q.tail < q.elements.length := by
    rw [h.hlen]; exact Nat.mod_lt _ hC
  have htail_eq : q.tail = (q.head + l.length) % C := by
    simp [Queue.tail, Queue.len, h.hlength]
  have hfull : q.is_full = false := by
    simp [Queue.is_full, Queue.len, Queue.capacity, h.hlength]
    omega
  have hset : setChecked q.elements q.tail (some e)
      = some (q.elements.set q.tail (some e)) := by
    simp [setChecked, htail_lt]
  refine ⟨by simp [Queue.enqueue, hfull, hset], ?_⟩
  refine ⟨?_, ?_, ?_, Or.inl hhead, ?_, ?_⟩
  · simp [h.hlen]
  · simp [h.hlength]
  · simp; omega
  · intro i hi
    simp only [List.length_append, List.length_cons, List.length_nil] at hi
    rcases Nat.lt_or_ge i l.length with hil | hil
    · have hne : q.tail ≠ (q.head + i) % C := by
        rw [htail_eq]
        intro hcontra
        have := add_mod_inj_of_lt hlt (Nat.lt_of_lt_of_le hil h.hle) hcontra
        omega
      rw [List.getElem?_set_ne hne, h.hocc i hil, List.getElem?_append_left hil]
    · have hieq : i = l.length := by omega
      subst hieq
      rw [← htail_eq, List.getElem?_set_self htail_lt, List.getElem?_concat_length]
  · intro j hj hunhit
    have hne : q.tail ≠ j := by
      rw [htail_eq]
      exact hunhit l.length (by simp)
    rw [List.getElem?_set_ne hne]
    refine h.hfree j hj ?_
    intro i hi
    exact hunhit i (by simp; omega)

/-- On a represented non-empty queue, `dequeue` returns the front element,
empties the old head slot, advances the head, and represents the tail of
the content. -/
theorem dequeue_cons {q : Queue T C} {x : T} {xs : List T} (h : ReprL q (x :: xs)) :
    q.dequeue = some (some x,
      (⟨q.elements.set q.head none, (q.head + 1) % C, q.length - 1⟩ : Queue T C)) ∧
    ReprL (⟨q.elements.set q.head none, (q.head + 1) % C, q.length - 1⟩ : Queue T C) xs := by
  have hC : 0 < C := Nat.lt_of_lt_of_le (Nat.succ_pos xs.length) h.hle
  have hhead : q.head < C := by
    rcases h.hhead with hh | ⟨h0, _⟩
    · exact hh
    · omega
  have hhead_lt : q.head < q.elements.length := by rw [h.hlen]; exact hhead
  have hget : q.elements[q.head]? = some (some x) := by
    have h0 := h.hocc 0 (Nat.succ_pos xs.length)
    simpa [Nat.mod_eq_of_lt hhead] using h0
  have hlen_cons : q.length = xs.length + 1 := by simpa using h.hlength
  have hxs_le : xs.length + 1 ≤ C := by simpa using h.hle
  refine ⟨by simp [Queue.dequeue, hget], ?_⟩
  refine ⟨?_, ?_, Nat.le_of_succ_le hxs_le, Or.inl (Nat.mod_lt _ hC), ?_, ?_⟩
  · simp [h.hlen]
  · simp [hlen_cons]
  · intro i hi
    have hidx : ((q.head + 1) % C + i) % C = (q.head + (1 + i)) % C := by
      rw [Nat.mod_add_mod, Nat.add_assoc]
    have hne : q.head ≠ (q.head + (1 + i)) % C := by
      intro hcontra
      have hcontra' : (q.head + 0) % C = (q.head + (1 + i)) % C := by
        simpa [Nat.mod_eq_of_lt hhead] using hcontra
      have := add_mod_inj_of_lt hC (by omega) hcontra'
      omega
    have hcons : (x :: xs)[1 + i]? = xs[i]? := by
      rw [Nat.add_comm 1 i]; exact List.getElem?_cons_succ
    rw [hidx, List.getElem?_set_ne hne, h.hocc (1 + i) (by simp; omega), hcons]
  · intro j hj hunhit
    rcases Decidable.em (j = q.head) with rfl | hne
    · exact List.getElem?_set_self hhead_lt
    · rw [List.getElem?_set_ne (fun hc => hne hc.symm)]
      refine h.hfree j hj ?_
      intro i hi
      simp only [List.length_cons] at hi
      match i, hi with
      | 0, _ =>
          simpa [Nat.mod_eq_of_lt hhead] using fun hc => hne hc.symm
      | i' + 1, hi' =>
          have heq : (q.head + (i' + 1)) % C = ((q.head + 1) % C + i') % C := by
            rw [Nat.mod_add_mod, Nat.add_assoc, Nat.add_comm 1 i']
          rw [heq]
          exact hunhit i' (by omega)

/-- On a represented empty queue with positive capacity, `dequeue` returns
`None` and leaves the state completely unchanged. -/
theorem dequeue_nil {q : Queue T C} (h : ReprL q []) (hC : 0 < C) :
    q.dequeue = some (none, q) := by
  have hhead : q.head < C := by
    rcases h.hhead with hh | ⟨h0, _⟩
    · exact hh
    · omega
  have hget : q.elements[q.head]? = some none := by
    refine h.hfree q.head hhead ?_
    intro i hi; simp at hi
  have hset : q.elements.set q.head none = q.elements := set_getElem?_self _ _ _ hget
  simp [Queue.dequeue, hget, hset]

end Queue

namespace Queue

variable {T : Type} {C : Nat}

/-- On a represented full queue, `enqueue` rejects the element and returns
the state unchanged. -/
theorem enqueue_full {q : Queue T C} {l : List T} (h : ReprL q l)
    (hfull : l.length = C) (e : T) : q.enqueue e = some (Except.error e, q) := by
  simp [Queue.enqueue, Queue.is_full, Queue.len, Queue.capacity, h.hlength, hfull]

/-- Every reachable queue state represents some content list. -/
theorem reachable_reprL {q : Queue T C} (h : Reachable T C q) :
    ∃ l, ReprL q l := by
  induction h with
  | new => exact ⟨[], reprL_new T C⟩
  | enq hq hstep ih =>
      obtain ⟨l, hl⟩ := ih
      rcases Nat.lt_or_ge l.length C with hlt | hge
      · obtain ⟨heq, hrepr⟩ := enqueue_ok hl _ hlt
        rw [heq] at hstep
        obtain ⟨-, rfl⟩ := Prod.mk.injEq .. ▸ Option.some.inj hstep
        exact ⟨_, hrepr⟩
      · have hfull : l.length = C := Nat.le_antisymm hl.hle hge
        rw [enqueue_full hl hfull _] at hstep
        obtain ⟨-, rfl⟩ := Prod.mk.injEq .. ▸ Option.some.inj hstep
        exact ⟨l, hl⟩
  | @deq q₀ q₁ r hq hstep ih =>
      obtain ⟨l, hl⟩ := ih
      match l, hl with
      | [], hl =>
          rcases Nat.eq_zero_or_pos C with hC | hC
          · exfalso
            have helems : q₀.elements = [] := by
              have hz : q₀.elements.length = 0 := by
                have := hl.hlen
                omega
              exact List.length_eq_zero.mp hz
            have hnone : q₀.elements[q₀.head]? = none := by
              rw [helems]; simp
            simp [Queue.dequeue, hnone] at hstep
          · rw [dequeue_nil hl hC] at hstep
            obtain ⟨-, rfl⟩ := Prod.mk.injEq .. ▸ Option.some.inj hstep
            exact ⟨[], hl⟩
      | x :: xs, hl =>
          obtain ⟨heq, hrepr⟩ := dequeue_cons hl
          rw [heq] at hstep
          obtain ⟨-, rfl⟩ := Prod.mk.injEq .. ▸ Option.some.inj hstep
          exact ⟨xs, hrepr⟩

/-- Folding `enqueue_ok` over a list of elements that fits in the capacity. -/
theorem enqueueAll_ok {es : List T} :
    ∀ {q : Queue T C} {l : List T}, ReprL q l → l.length + es.length ≤ C →
    ∃ q', q.enqueueAll es = some q' ∧ ReprL q' (l ++ es) := by
  induction es with
  | nil =>
      intro q l h _
      exact ⟨q, rfl, by simpa using h⟩
  | cons e es ih =>
      intro q l h hle
      have hlt : l.length < C := by simp at hle; omega
      obtain ⟨heq, hrepr⟩ := enqueue_ok h e hlt
      obtain ⟨q', h1, h2⟩ := ih hrepr (by simp at hle ⊢; omega)
      refine ⟨q', ?_, by simpa using h2⟩
      rw [Queue.enqueueAll, heq]
      exact h1

/-- Folding `dequeue_cons` over the whole represented content. -/
theorem dequeueN_all {l : List T} :
    ∀ {q : Queue T C}, ReprL q l →
    ∃ q', q.dequeueN l.length = some (l, q') ∧ ReprL q' [] := by
  induction l with
  | nil => intro q h; exact ⟨q, rfl, h⟩
  | cons x xs ih =>
      intro q h
      obtain ⟨heq, hrepr⟩ := dequeue_cons h
      obtain ⟨q', h1, h2⟩ := ih hrepr
      refine ⟨q', ?_, h2⟩
      simp only [List.length_cons, Queue.dequeueN, heq, h1]

end Queue

namespace Stack

variable {T : Type} {C : Nat}

/-- Representation predicate: stack state `s` stores the logical content
`l`, bottom of the stack first (index 0 = bottom, last = top). The slot
condition covers both occupied (`i < l.length`) and free
(`l.length ≤ i < C`) slots, since `l[i]? = none` past the end. -/
structure ReprS (s : Stack T C) (l : List T) : Prop where
  hlen : s.elements.length = C
  hlength : s.length = l.length
  hle : l.length ≤ C
  hslots : ∀ i, i < C → s.elements[i]? = some l[i]?

/-- A fresh stack represents the empty content. -/
theorem reprS_new (T : Type) (C : Nat) : ReprS (Stack.new T C) [] := by
  refine ⟨List.length_replicate C none, rfl, Nat.zero_le C, ?_⟩
  intro i hi
  simp [Stack.new, List.getElem?_replicate, hi]

/-- On a non-full represented stack, `push` succeeds, writes the new
element at index `len`, and represents the content extended at the top. -/
theorem push_ok {s : Stack T C} {l : List T} (h : ReprS s l) (e : T)
    (hlt : l.length < C) :
    s.push e = some (Except.ok (),
      (⟨s.elements.set l.length (some e), s.length + 1⟩ : Stack T C)) ∧
    ReprS (⟨s.elements.set l.length (some e), s.length + 1⟩ : Stack T C) (l ++ [e]) := by
  have hlen_lt : l.length < s.elements.length := by rw [h.hlen]; exact hlt
  have hfull : s.is_full = false := by
    simp [Stack.is_full, Stack.len, Stack.capacity, h.hlength]
    omega
  have hset : setChecked s.elements s.len (some e)
      = some (s.elements.set l.length (some e)) := by
    simp [setChecked, Stack.len, h.hlength, hlen_lt]
  refine ⟨by simp [Stack.push, hfull, hset], ?_, ?_, ?_, ?_⟩
  · simp [h.hlen]
  · simp [h.hlength]
  · simp; omega
  · intro i hi
    rcases Decidable.em (i = l.length) with rfl | hne
    · rw [List.getElem?_set_self hlen_lt, List.getElem?_concat_length]
    · rw [List.getElem?_set_ne (fun hc => hne hc.symm), h.hslots i hi]
      rcases Nat.lt_or_ge i l.length with hil | hil
      · rw [List.getElem?_append_left hil]
      · have hgt : l.length + 1 ≤ i := by omega
        rw [List.getElem?_len_le hil, List.getElem?_len_le (by simpa using hgt)]

/-- On a represented full stack, `push` rejects the element and returns the
state unchanged. -/
theorem push_full {s : Stack T C} {l : List T} (h : ReprS s l)
    (hfull : l.length = C) (e : T) : s.push e = some (Except.error e, s) := by
  simp [Stack.push, Stack.is_full, Stack.len, Stack.capacity, h.hlength, hfull]

/-- On a represented non-empty stack, `pop` returns the top element,
empties the top slot, and represents the content without it. -/
theorem pop_concat {s : Stack T C} {l : List T} {x : T} (h : ReprS s (l ++ [x])) :
    s.pop = some (some x, (⟨s.elements.set l.length none, s.length - 1⟩ : Stack T C)) ∧
    ReprS (⟨s.elements.set l.length none, s.length - 1⟩ : Stack T C) l := by
  have hlen : s.length = l.length + 1 := by simpa using h.hlength
  have hlt : l.length < C := by
    have := h.hle; simp at this; omega
  have hlen_lt : l.length < s.elements.length := by rw [h.hlen]; exact hlt
  have hempty : s.is_empty = false := by
    simp [Stack.is_empty, Stack.len, hlen]
  have htop : s.top = l.length := by simp [Stack.top, Stack.len, hlen]
  have hget : s.elements[l.length]? = some (some x) := by
    rw [h.hslots l.length hlt, List.getElem?_concat_length]
  refine ⟨by simp [Stack.pop, hempty, htop, hget], ?_, ?_, ?_, ?_⟩
  · simp [h.hlen]
  · simp [hlen]
  · omega
  · intro i hi
    rcases Decidable.em (i = l.length) with rfl | hne
    · rw [List.getElem?_set_self hlen_lt, List.getElem?_len_le (Nat.le_refl _)]
    · rw [List.getElem?_set_ne (fun hc => hne hc.symm), h.hslots i hi]
      rcases Nat.lt_or_ge i l.length with hil | hil
      · rw [List.getElem?_append_left hil]
      · have hgt : l.length + 1 ≤ i := by omega
        rw [List.getElem?_len_le hil, List.getElem?_len_le (by simpa using hgt)]

/-- On any empty stack, `pop` returns `None` and leaves the state
completely unchanged (this is the guard in the source). -/
theorem pop_empty {s : Stack T C} (h : s.length = 0) :
    s.pop = some (none, s) := by
  simp [Stack.pop, Stack.is_empty, Stack.len, h]

/-- Every reachable stack state represents some content list. -/
theorem reachable_reprS {s : Stack T C} (h : Reachable T C s) :
    ∃ l, ReprS s l := by
  induction h with
  | new => exact ⟨[], reprS_new T C⟩
  | push hs hstep ih =>
      obtain ⟨l, hl⟩ := ih
      rcases Nat.lt_or_ge l.length C with hlt | hge
      · obtain ⟨heq, hrepr⟩ := push_ok hl _ hlt
        rw [heq] at hstep
        obtain ⟨-, rfl⟩ := Prod.mk.injEq .. ▸ Option.some.inj hstep
        exact ⟨_, hrepr⟩
      · have hfull : l.length = C := Nat.le_antisymm hl.hle hge
        rw [push_full hl hfull _] at hstep
        obtain ⟨-, rfl⟩ := Prod.mk.injEq .. ▸ Option.some.inj hstep
        exact ⟨l, hl⟩
  | pop hs hstep ih =>
      obtain ⟨l, hl⟩ := ih
      rcases List.eq_nil_or_concat l with rfl | ⟨l', x, rfl⟩
      · rw [pop_empty (by simpa using hl.hlength)] at hstep
        obtain ⟨-, rfl⟩ := Prod.mk.injEq .. ▸ Option.some.inj hstep
        exact ⟨[], hl⟩
      · rw [List.concat_eq_append] at hl
        obtain ⟨heq, hrepr⟩ := pop_concat hl
        rw [heq] at hstep
        obtain ⟨-, rfl⟩ := Prod.mk.injEq .. ▸ Option.some.inj hstep
        exact ⟨l', hrepr⟩

/-- Folding `push_ok` over a list of elements that fits in the capacity. -/
theorem pushAll_ok {es : List T} :
    ∀ {s : Stack T C} {l : List T}, ReprS s l → l.length + es.length ≤ C →
    ∃ s', s.pushAll es = some s' ∧ ReprS s' (l ++ es) := by
  induction es with
  | nil =>
      intro s l h _
      exact ⟨s, rfl, by simpa using h⟩
  | cons e es ih =>
      intro s l h hle
      have hlt : l.length < C := by simp at hle; omega
      obtain ⟨heq, hrepr⟩ := push_ok h e hlt
      obtain ⟨s', h1, h2⟩ := ih hrepr (by simp at hle ⊢; omega)
      refine ⟨s', ?_, by simpa using h2⟩
      rw [Stack.pushAll, heq]
      exact h1

/-- Folding `pop_concat` over the whole represented content: popping
`l.length` times yields the elements in reverse (LIFO) order. -/
theorem popN_all {l : List T} :
    ∀ {s : Stack T C}, ReprS s l →
    ∃ s', s.popN l.length = some (l.reverse, s') ∧ ReprS s' [] := by
  induction l using List.reverseRecOn with
  | nil => intro s h; exact ⟨s, rfl, h⟩
  | append_singleton l x ih =>
      intro s h
      obtain ⟨heq, hrepr⟩ := pop_concat h
      obtain ⟨s', h1, h2⟩ := ih hrepr
      refine ⟨s', ?_, h2⟩
      have hlen : (l ++ [x]).length = l.length + 1 := by simp
      rw [hlen]
      simp only [Stack.popN, heq, h1, List.reverse_append, List.reverse_cons,
        List.reverse_nil, List.nil_append, List.singleton_append]

end Stack

/-! ### Claim theorems -/

/-- Claim C1 (amended: capacity at least 1, forced by the `C = 0` dequeue
panic shown in `C1_counterexample`): from the empty queue, enqueuing the
elements of `l` (`l.length ≤ C`) succeeds with every call returning `Ok`,
dequeuing `l.length` times returns exactly the elements of `l` in order,
and a further dequeue returns `None` leaving the state unchanged. -/
theorem C1_fifo_order (T : Type) (C : Nat) (l : List T) (hC : 1 ≤ C)
    (hk : l.length ≤ C) :
    ∃ q' q'', (Queue.new T C).enqueueAll l = some q' ∧
      q'.dequeueN l.length = some (l, q'') ∧
      q''.dequeue = some (none, q'') := by
  obtain ⟨q', h1, h2⟩ := Queue.enqueueAll_ok (Queue.reprL_new T C) (by simpa using hk)
  rw [List.nil_append] at h2
  obtain ⟨q'', h3, h4⟩ := Queue.dequeueN_all h2
  exact ⟨q', q'', h1, h3, Queue.dequeue_nil h4 hC⟩

/-- Witness for `C1_fifo_order` at `T = Nat`, `C = 2`, `l = [5, 7]`. -/
theorem C1_fifo_order_witness :
    1 ≤ 2 ∧ ([5, 7] : List Nat).length ≤ 2 ∧
    (∃ q' q'', (Queue.new Nat 2).enqueueAll [5, 7] = some q' ∧
      q'.dequeueN ([5, 7] : List Nat).length = some ([5, 7], q'') ∧
      q''.dequeue = some (none, q'')) :=
  ⟨by decide, by decide, C1_fifo_order Nat 2 [5, 7] (by decide) (by decide)⟩

/-- Claim C2: from the empty stack, pushing the elements of `l`
(`l.length ≤ C`) succeeds with every call returning `Ok`, popping
`l.length` times returns exactly the elements of `l` in reverse order, and
a further pop returns `None` leaving the state unchanged. -/
theorem C2_lifo_order (T : Type) (C : Nat) (l : List T) (hk : l.length ≤ C) :
    ∃ s' s'', (Stack.new T C).pushAll l = some s' ∧
      s'.popN l.length = some (l.reverse, s'') ∧
      s''.pop = some (none, s'') := by
  obtain ⟨s', h1, h2⟩ := Stack.pushAll_ok (Stack.reprS_new T C) (by simpa using hk)
  rw [List.nil_append] at h2
  obtain ⟨s'', h3, h4⟩ := Stack.popN_all h2
  exact ⟨s', s'', h1, h3, Stack.pop_empty (by simpa using h4.hlength)⟩

/-- Witness for `C2_lifo_order` at `T = Nat`, `C = 2`, `l = [5, 7]`. -/
theorem C2_lifo_order_witness :
    ([5, 7] : List Nat).length ≤ 2 ∧
    (∃ s' s'', (Stack.new Nat 2).pushAll [5, 7] = some s' ∧
      s'.popN ([5, 7] : List Nat).length = some ([7, 5], s'') ∧
      s''.pop = some (none, s'')) :=
  ⟨by decide, C2_lifo_order Nat 2 [5, 7] (by decide)⟩

/-- Claim C4: on any full container state (`len() == capacity()`),
`enqueue`/`push` returns `Err` carrying exactly the offered element and the
returned state is the argument state itself, so the length, the head, and
every storage slot visible through `as_slice` are unchanged. -/
theorem C4_full_rejection (T : Type) (C : Nat) (q : Queue T C) (s : Stack T C)
    (e f : T) (hq : q.len = q.capacity) (hs : s.len = s.capacity) :
    q.enqueue e = some (Except.error e, q) ∧ s.push f = some (Except.error f, s) := by
  constructor
  · simp [Queue.enqueue, Queue.is_full, hq]
  · simp [Stack.push, Stack.is_full, hs]

/-- Witness for `C4_full_rejection` at full capacity-1 containers. -/
theorem C4_full_rejection_witness :
    (⟨[some 1], 0, 1⟩ : Queue Nat 1).len = (⟨[some 1], 0, 1⟩ : Queue Nat 1).capacity ∧
    (⟨[some 2], 1⟩ : Stack Nat 1).len = (⟨[some 2], 1⟩ : Stack Nat 1).capacity ∧
    ((⟨[some 1], 0, 1⟩ : Queue Nat 1).enqueue 7
        = some (Except.error 7, ⟨[some 1], 0, 1⟩) ∧
      (⟨[some 2], 1⟩ : Stack Nat 1).push 9
        = some (Except.error 9, ⟨[some 2], 1⟩)) :=
  ⟨rfl, rfl, C4_full_rejection Nat 1 _ _ 7 9 rfl rfl⟩

/-- Claim C5: in every reachable state, for the queue exactly the slots at
positions `(head + i) % C` for `i < len` hold `Some` and all other slots
hold `None`; for the stack exactly the slots below `len` hold `Some` and
all other slots hold `None`. -/
theorem C5_storage_invariant (T : Type) (C : Nat) (q : Queue T C) (s : Stack T C)
    (hq : Queue.Reachable T C q) (hs : Stack.Reachable T C s) :
    (∀ j, j < C →
      ((∃ i, i < q.len ∧ (q.head + i) % C = j) → ∃ v, q.elements[j]? = some (some v)) ∧
      ((∀ i, i < q.len → (q.head + i) % C ≠ j) → q.elements[j]? = some none)) ∧
    (∀ j, j < C →
      (j < s.len → ∃ v, s.elements[j]? = some (some v)) ∧
      (s.len ≤ j → s.elements[j]? = some none)) := by
  obtain ⟨l, hl⟩ := Queue.reachable_reprL hq
  obtain ⟨m, hm⟩ := Stack.reachable_reprS hs
  have hql := hl.hlength
  have hsl := hm.hlength
  constructor
  · intro j hj
    constructor
    · rintro ⟨i, hi, rfl⟩
      have hi' : i < l.length := by simp only [Queue.len] at hi; omega
      obtain ⟨v, hv⟩ : ∃ v, l[i]? = some v := by
        rw [List.getElem?_eq_getElem hi']; exact ⟨_, rfl⟩
      exact ⟨v, by rw [hl.hocc i hi', hv]⟩
    · intro hunhit
      refine hl.hfree j hj ?_
      intro i hi
      refine hunhit i ?_
      simp only [Queue.len]
      omega
  · intro j hj
    constructor
    · intro hjlt
      have hj' : j < m.length := by simp only [Stack.len] at hjlt; omega
      obtain ⟨v, hv⟩ : ∃ v, m[j]? = some v := by
        rw [List.getElem?_eq_getElem hj']; exact ⟨_, rfl⟩
      exact ⟨v, by rw [hm.hslots j hj, hv]⟩
    · intro hge
      have hge' : m.length ≤ j := by simp only [Stack.len] at hge; omega
      rw [hm.hslots j hj, List.getElem?_len_le hge']

/-- Witness for `C5_storage_invariant` on one-element reachable states of
capacity 2. -/
theorem C5_storage_invariant_witness :
    Queue.Reachable Nat 2 ⟨[some 5, none], 0, 1⟩ ∧
    Stack.Reachable Nat 2 ⟨[some 6, none], 1⟩ ∧
    ((∀ j, j < 2 →
      ((∃ i, i < (⟨[some 5, none], 0, 1⟩ : Queue Nat 2).len ∧ (0 + i) % 2 = j) →
        ∃ v, ([some 5, none] : List (Option Nat))[j]? = some (some v)) ∧
      ((∀ i, i < (⟨[some 5, none], 0, 1⟩ : Queue Nat 2).len → (0 + i) % 2 ≠ j) →
        ([some 5, none] : List (Option Nat))[j]? = some none)) ∧
    (∀ j, j < 2 →
      (j < (⟨[some 6, none], 1⟩ : Stack Nat 2).len →
        ∃ v, ([some 6, none] : List (Option Nat))[j]? = some (some v)) ∧
      ((⟨[some 6, none], 1⟩ : Stack Nat 2).len ≤ j →
        ([some 6, none] : List (Option Nat))[j]? = some none))) :=
  have hq : Queue.Reachable Nat 2 ⟨[some 5, none], 0, 1⟩ :=
    Queue.Reachable.enq (e := 5) (r := Except.ok ()) Queue.Reachable.new rfl
  have hs : Stack.Reachable Nat 2 ⟨[some 6, none], 1⟩ :=
    Stack.Reachable.push (e := 6) (r := Except.ok ()) Stack.Reachable.new rfl
  ⟨hq, hs, C5_storage_invariant Nat 2 _ _ hq hs⟩

/-- Claim C6: in every reachable state of either container (i.e. after
every sequence of calls), `0 ≤ len() ≤ capacity()`. -/
theorem C6_capacity_invariant (T : Type) (C : Nat) (q : Queue T C) (s : Stack T C)
    (hq : Queue.Reachable T C q) (hs : Stack.Reachable T C s) :
    (0 ≤ q.len ∧ q.len ≤ q.capacity) ∧ (0 ≤ s.len ∧ s.len ≤ s.capacity) := by
  obtain ⟨l, hl⟩ := Queue.reachable_reprL hq
  obtain ⟨m, hm⟩ := Stack.reachable_reprS hs
  refine ⟨⟨Nat.zero_le _, ?_⟩, Nat.zero_le _, ?_⟩
  · have h1 := hl.hlength
    have h2 := hl.hle
    simp only [Queue.len, Queue.capacity]
    omega
  · have h1 := hm.hlength
    have h2 := hm.hle
    simp only [Stack.len, Stack.capacity]
    omega

/-- Witness for `C6_capacity_invariant` on reachable capacity-2 states. -/
theorem C6_capacity_invariant_witness :
    Queue.Reachable Nat 2 ⟨[some 5, none], 0, 1⟩ ∧
    Stack.Reachable Nat 2 ⟨[some 6, none], 1⟩ ∧
    (((0 ≤ (⟨[some 5, none], 0, 1⟩ : Queue Nat 2).len ∧
        (⟨[some 5, none], 0, 1⟩ : Queue Nat 2).len
          ≤ (⟨[some 5, none], 0, 1⟩ : Queue Nat 2).capacity) ∧
      (0 ≤ (⟨[some 6, none], 1⟩ : Stack Nat 2).len ∧
        (⟨[some 6, none], 1⟩ : Stack Nat 2).len
          ≤ (⟨[some 6, none], 1⟩ : Stack Nat 2).capacity))) :=
  have hq : Queue.Reachable Nat 2 ⟨[some 5, none], 0, 1⟩ :=
    Queue.Reachable.enq (e := 5) (r := Except.ok ()) Queue.Reachable.new rfl
  have hs : Stack.Reachable Nat 2 ⟨[some 6, none], 1⟩ :=
    Stack.Reachable.push (e := 6) (r := Except.ok ()) Stack.Reachable.new rfl
  ⟨hq, hs, C6_capacity_invariant Nat 2 _ _ hq hs⟩

/-- Claim C7: in every reachable state of either container, `get(index)`
never panics, returns a value exactly when `index < len()` and `None`
otherwise (also for `index ≥ C`), and for the queue the value returned at
logical index `i` is the element stored at slot `(head + i) % C`. -/
theorem C7_get_index_bound (T : Type) (C : Nat) (q : Queue T C) (s : Stack T C)
    (hq : Queue.Reachable T C q) (hs : Stack.Reachable T C s) :
    (∀ index,
      q.get index ≠ none ∧
      ((∃ v, q.get index = some (some v)) ↔ index < q.len) ∧
      (q.len ≤ index → q.get index = some none) ∧
      (index < q.len → q.get index = q.elements[(q.head + index) % C]?)) ∧
    (∀ index,
      s.get index ≠ none ∧
      ((∃ v, s.get index = some (some v)) ↔ index < s.len) ∧
      (s.len ≤ index → s.get index = some none)) := by
  obtain ⟨l, hl⟩ := Queue.reachable_reprL hq
  obtain ⟨m, hm⟩ := Stack.reachable_reprS hs
  have hql := hl.hlength
  have hsl := hm.hlength
  constructor
  · intro index
    rcases Nat.lt_or_ge index q.len with hlt | hge
    · have hlt' : index < l.length := by simp only [Queue.len] at hlt; omega
      have hnot : ¬ index ≥ q.len := Nat.not_le.mpr hlt
      have hgdef : q.get index = q.elements[(q.head + index) % C]? := by
        simp [Queue.get, Queue.capacity, hnot]
      obtain ⟨v, hv⟩ : ∃ v, l[index]? = some v := by
        rw [List.getElem?_eq_getElem hlt']; exact ⟨_, rfl⟩
      have hval : q.get index = some (some v) := by
        rw [hgdef, hl.hocc index hlt', hv]
      refine ⟨by rw [hval]; simp, ⟨fun _ => hlt, fun _ => ⟨v, hval⟩⟩, ?_, fun _ => hgdef⟩
      intro hcontra
      exact absurd hcontra (Nat.not_le.mpr hlt)
    · have hgdef : q.get index = some none := by
        simp [Queue.get, hge]
      refine ⟨by rw [hgdef]; simp, ⟨?_, ?_⟩, fun _ => hgdef, ?_⟩
      · rintro ⟨v, hv⟩
        rw [hgdef] at hv
        simp at hv
      · intro hcontra
        exact absurd hcontra (Nat.not_lt.mpr hge)
      · intro hcontra
        exact absurd hcontra (Nat.not_lt.mpr hge)
  · intro index
    rcases Nat.lt_or_ge index s.len with hlt | hge
    · have hlt' : index < m.length := by simp only [Stack.len] at hlt; omega
      have hltC : index < C := Nat.lt_of_lt_of_le hlt' hm.hle
      have hnot : ¬ index ≥ s.len := Nat.not_le.mpr hlt
      have hgdef : s.get index = s.elements[index]? := by
        simp [Stack.get, hnot]
      obtain ⟨v, hv⟩ : ∃ v, m[index]? = some v := by
        rw [List.getElem?_eq_getElem hlt']; exact ⟨_, rfl⟩
      have hval : s.get index = some (some v) := by
        rw [hgdef, hm.hslots index hltC, hv]
      refine ⟨by rw [hval]; simp, ⟨fun _ => hlt, fun _ => ⟨v, hval⟩⟩, ?_⟩
      intro hcontra
      exact absurd hcontra (Nat.not_le.mpr hlt)
    · have hgdef : s.get index = some none := by
        simp [Stack.get, hge]
      refine ⟨by rw [hgdef]; simp, ⟨?_, ?_⟩, fun _ => hgdef⟩
      · rintro ⟨v, hv⟩
        rw [hgdef] at hv
        simp at hv
      · intro hcontra
        exact absurd hcontra (Nat.not_lt.mpr hge)

/-- Witness for `C7_get_index_bound` on one-element reachable states of
capacity 2. -/
theorem C7_get_index_bound_witness :
    Queue.Reachable Nat 2 ⟨[some 5, none], 0, 1⟩ ∧
    Stack.Reachable Nat 2 ⟨[some 6, none], 1⟩ ∧
    ((∀ index,
      (⟨[some 5, none], 0, 1⟩ : Queue Nat 2).get index ≠ none ∧
      ((∃ v, (⟨[some 5, none], 0, 1⟩ : Queue Nat 2).get index = some (some v)) ↔
        index < (⟨[some 5, none], 0, 1⟩ : Queue Nat 2).len) ∧
      ((⟨[some 5, none], 0, 1⟩ : Queue Nat 2).len ≤ index →
        (⟨[some 5, none], 0, 1⟩ : Queue Nat 2).get index = some none) ∧
      (index < (⟨[some 5, none], 0, 1⟩ : Queue Nat 2).len →
        (⟨[some 5, none], 0, 1⟩ : Queue Nat 2).get index
          = ([some 5, none] : List (Option Nat))[(0 + index) % 2]?)) ∧
    (∀ index,
      (⟨[some 6, none], 1⟩ : Stack Nat 2).get index ≠ none ∧
      ((∃ v, (⟨[some 6, none], 1⟩ : Stack Nat 2).get index = some (some v)) ↔
        index < (⟨[some 6, none], 1⟩ : Stack Nat 2).len) ∧
      ((⟨[some 6, none], 1⟩ : Stack Nat 2).len ≤ index →
        (⟨[some 6, none], 1⟩ : Stack Nat 2).get index = some none))) :=
  have hq : Queue.Reachable Nat 2 ⟨[some 5, none], 0, 1⟩ :=
    Queue.Reachable.enq (e := 5) (r := Except.ok ()) Queue.Reachable.new rfl
  have hs : Stack.Reachable Nat 2 ⟨[some 6, none], 1⟩ :=
    Stack.Reachable.push (e := 6) (r := Except.ok ()) Stack.Reachable.new rfl
  ⟨hq, hs, C7_get_index_bound Nat 2 _ _ hq hs⟩

/-- Claim C9: on every reachable non-empty queue, a successful `dequeue`
changes only the slot at the old head index (to `None`); every other slot
keeps its value, so remaining elements are never shifted. -/
theorem C9_dequeue_no_shift (T : Type) (C : Nat) (q : Queue T C)
    (hq : Queue.Reachable T C q) (hne : 0 < q.len) :
    ∃ x, q.dequeue = some (some x,
        (⟨q.elements.set q.head none, (q.head + 1) % C, q.length - 1⟩ : Queue T C)) ∧
      (∀ j, j ≠ q.head → (q.elements.set q.head none)[j]? = q.elements[j]?) ∧
      (q.elements.set q.head none)[q.head]? = some none := by
  obtain ⟨l, hl⟩ := Queue.reachable_reprL hq
  match l, hl with
  | [], hl =>
      exfalso
      have hz := hl.hlength
      simp only [List.length_nil] at hz
      simp only [Queue.len] at hne
      omega
  | x :: xs, hl =>
      obtain ⟨heq, -⟩ := Queue.dequeue_cons hl
      have hC : 0 < C := Nat.lt_of_lt_of_le (Nat.succ_pos xs.length) hl.hle
      have hh : q.head < C := by
        rcases hl.hhead with h | ⟨h0, _⟩
        · exact h
        · omega
      have hh' : q.head < q.elements.length := by rw [hl.hlen]; exact hh
      refine ⟨x, heq, ?_, List.getElem?_set_self hh'⟩
      intro j hj
      exact List.getElem?_set_ne (fun hc => hj hc.symm)

/-- Witness for `C9_dequeue_no_shift` on a one-element reachable queue of
capacity 2. -/
theorem C9_dequeue_no_shift_witness :
    Queue.Reachable Nat 2 ⟨[some 5, none], 0, 1⟩ ∧
    0 < (⟨[some 5, none], 0, 1⟩ : Queue Nat 2).len ∧
    (∃ x, (⟨[some 5, none], 0, 1⟩ : Queue Nat 2).dequeue = some (some x,
        (⟨([some 5, none] : List (Option Nat)).set 0 none, (0 + 1) % 2, 1 - 1⟩ : Queue Nat 2)) ∧
      (∀ j, j ≠ 0 → (([some 5, none] : List (Option Nat)).set 0 none)[j]?
        = ([some 5, none] : List (Option Nat))[j]?) ∧
      (([some 5, none] : List (Option Nat)).set 0 none)[0]? = some none) :=
  have hq : Queue.Reachable Nat 2 ⟨[some 5, none], 0, 1⟩ :=
    Queue.Reachable.enq (e := 5) (r := Except.ok ()) Queue.Reachable.new rfl
  ⟨hq, by decide, C9_dequeue_no_shift Nat 2 _ hq (by decide)⟩

/-- Claim C10: failed removals are complete no-ops. On a reachable queue of
capacity at least 1 with `len() == 0`, `dequeue` returns `None` and the
resulting state — head index and every storage slot included — is the
argument state itself; likewise `pop` on any stack with `len() == 0`. -/
theorem C10_failed_removal_noop (T : Type) (C : Nat) (q : Queue T C) (s : Stack T C)
    (hq : Queue.Reachable T C q) (hq0 : q.len = 0) (hC : 1 ≤ C) (hs0 : s.len = 0) :
    q.dequeue = some (none, q) ∧ s.pop = some (none, s) := by
  obtain ⟨l, hl⟩ := Queue.reachable_reprL hq
  have hnil : l = [] := by
    have := hl.hlength
    simp only [Queue.len] at hq0
    exact List.length_eq_zero.mp (by omega)
  subst hnil
  exact ⟨Queue.dequeue_nil hl hC, Stack.pop_empty (by simpa [Stack.len] using hs0)⟩

/-- Witness for `C10_failed_removal_noop` on fresh capacity-1 containers. -/
theorem C10_failed_removal_noop_witness :
    Queue.Reachable Nat 1 (Queue.new Nat 1) ∧
    (Queue.new Nat 1).len = 0 ∧ 1 ≤ 1 ∧ (Stack.new Nat 1).len = 0 ∧
    ((Queue.new Nat 1).dequeue = some (none, Queue.new Nat 1) ∧
      (Stack.new Nat 1).pop = some (none, Stack.new Nat 1)) :=
  ⟨Queue.Reachable.new, rfl, by decide, rfl,
    C10_failed_removal_noop Nat 1 _ _ Queue.Reachable.new rfl (by decide) rfl⟩
